import Mathlib

/-!
Verification of the three sum-type encodings of a singly linked list
(tagged union, Scott encoding in its keyed and positional variants, and
object algebra) from the repository sources.

General modelling conventions, applied uniformly:

* The native array type of the host language is modelled as Lean's `List`,
  with `[x, ...rest]` becoming `x :: rest` and `Array.prototype.map`
  becoming `List.map`.
* A nullary constructor call such as `empty()` is modelled as a constant,
  and a nullary handler such as `Empty: () => Result` as a function
  `Unit → Result` (so that invoking it with no arguments is `h ()`).
* Rank-2 polymorphic function types (the Scott dispatcher and the
  object-algebra list) are impredicative in the source language.  The
  object-algebra type is modelled with universe polymorphism; the Scott
  list type is not strictly positive, so its closures are defunctionalized
  into an inductive family whose constructors are exactly the closure
  shapes the module creates (`empty`, `cons`, `map`), with `caseOf`
  interpreting each tag precisely as the corresponding source closure body.
-/

/-! ### Tagged-union encoding

Source: the tagged-union module.

```
export type List<T> =
  | { type: 'Cons'; head: T; tail: List<T> }
  | { type: 'Empty' }
```

The closed variant with a discriminant field is a Lean inductive type.  The
type is named `TList` because `List` must keep referring to the native
array model inside the namespace.
-/

namespace TaggedUnion

inductive TList (T : Type) : Type where
  | Empty : TList T
  | Cons (head : T) (tail : TList T) : TList T

/-- Source: `export const empty = (): List<any> => ({ type: 'Empty' })`. -/
def empty {T : Type} : TList T := .Empty

/-- Source: `export const cons = <T>(head, tail) => ({ type: 'Cons', head, tail })`. -/
def cons {T : Type} (head : T) (tail : TList T) : TList T := .Cons head tail

/-- Source: `map` switches on the discriminant; `Empty` returns `empty()`,
`Cons` returns `cons(f(list.head), map(list.tail, f))`. -/
def map {A B : Type} (list : TList A) (f : A → B) : TList B :=
  match list with
  | .Empty => empty
  | .Cons head tail => cons (f head) (map tail f)

/-- Source: `toArray` switches on the discriminant; `Empty` returns `[]`,
`Cons` returns `[list.head, ...toArray(list.tail)]`. -/
def toArray {T : Type} (list : TList T) : List T :=
  match list with
  | .Empty => []
  | .Cons head tail => head :: toArray tail

/-- Builds the tagged-union list for a given finite sequence of elements,
as nested `cons` applications terminated by `empty`. -/
def ofList {T : Type} : List T → TList T
  | [] => empty
  | x :: xs => cons x (ofList xs)

theorem toArray_ofList_tagged {T : Type} (xs : List T) : toArray (ofList xs) = xs := by
  induction xs with
  | nil => rfl
  | cons x xs ih => simpa [ofList, cons, toArray] using ih

theorem toArray_map_tagged {A B : Type} (l : TList A) (f : A → B) :
    toArray (map l f) = (toArray l).map f := by
  induction l with
  | Empty => rfl
  | Cons head tail ih => simpa [map, cons, toArray] using ih

end TaggedUnion

/-! ### Object-algebra encoding

Source: `src/object-algebra.ts`.

```
export interface ListAlg<T, ListT> {
  empty(): ListT
  cons(head: T, tail: ListT): ListT
}
export type List<T> = <Result>(_: ListAlg<T, Result>) => Result
```

The result type is universally quantified per call (rank-2, impredicative
in the source).  In Lean the quantification must pick a universe, so
`OList` is universe polymorphic; `map`, which instantiates the result type
at `List<B>` itself, consumes a list one universe higher than it produces.
The type is named `OList` for the same reason as `TList` above.
-/

namespace ObjectAlgebra

structure ListAlg (T : Type) (R : Type u) : Type u where
  empty : Unit → R
  cons : T → R → R

def OList (T : Type) : Type (u + 1) := ∀ (R : Type u), ListAlg T R → R

/-- Source: `export const empty = <T>(): List<T> => (L) => L.empty()`. -/
def empty {T : Type} : OList.{u} T := fun _ L => L.empty ()

/-- Source: `export const cons = <T>(first, rest): List<T> => (L) => L.cons(first, rest(L))`. -/
def cons {T : Type} (first : T) (rest : OList.{u} T) : OList.{u} T :=
  fun R L => L.cons first (rest R L)

/-- Source: `map` applies the list to the algebra
`{ empty: () => empty(), cons: (head, tail) => cons(f(head), tail) }`. -/
def map {A B : Type} (list : OList.{u + 1} A) (f : A → B) : OList.{u} B :=
  list (OList.{u} B) ⟨fun _ => empty, fun head tail => cons (f head) tail⟩

/-- Source: `toArray` applies the list to the algebra
`{ empty: () => [], cons: (head, tail) => [head, ...tail] }`. -/
def toArray {T : Type} (list : OList.{0} T) : List T :=
  list (List T) ⟨fun _ => [], fun head tail => head :: tail⟩

/-- Builds the object-algebra list for a given finite sequence of elements,
as nested `cons` applications terminated by `empty`. -/
def ofList {T : Type} : List T → OList.{u} T
  | [] => empty
  | x :: xs => cons x (ofList xs)

theorem toArray_ofList_oa {T : Type} (xs : List T) : toArray (ofList.{0} xs) = xs := by
  induction xs with
  | nil => rfl
  | cons x xs ih => simpa [ofList, cons, toArray] using ih

theorem map_ofList {A B : Type} (xs : List A) (f : A → B) :
    map (ofList.{1} xs) f = ofList.{0} (xs.map f) := by
  induction xs with
  | nil => rfl
  | cons x xs ih =>
    show ObjectAlgebra.cons (f x) (map (ofList.{1} xs) f) = _
    rw [ih]
    rfl

theorem toArray_map_ofList {A B : Type} (xs : List A) (f : A → B) :
    toArray (map (ofList.{1} xs) f) = xs.map f := by
  rw [map_ofList, toArray_ofList_oa]

end ObjectAlgebra

/-! ### Scott encoding, keyed-argument variant

Source: the Scott module whose `caseOf` takes a single record argument.

```
type ListCases<T> = <Result>(_: {
  Empty: () => Result
  Cons: (head: T, tail: List<T>) => Result
}) => Result
export type List<T> = { caseOf: ListCases<T> }
```

`List<T>` is a recursive type whose recursive occurrence sits to the left
of an arrow, so it cannot be a Lean inductive directly.  The module only
ever creates three closure shapes for `caseOf` — the one built by `empty`,
the one built by `cons`, and the one built by `map` — so the closures are
defunctionalized: `SList` is the inductive family of those three tags, and
`caseOf` interprets each tag with exactly the body the source gives that
closure.  `empty`, `cons` and `map` then each allocate their tag without
inspecting their arguments, just as the source allocates an object literal.
-/

namespace ScottKeyed

inductive SList : Type → Type 1 where
  | emptyClo : ∀ {T : Type}, SList T
  | consClo : ∀ {T : Type}, T → SList T → SList T
  | mapClo : ∀ {A B : Type}, SList A → (A → B) → SList B

/-- The record of handlers passed to `caseOf`: the anonymous
`{ Empty: () => Result; Cons: (head, tail) => Result }` parameter type. -/
structure ListCasesArg (T R : Type) : Type 1 where
  Empty : Unit → R
  Cons : T → SList T → R

/-- Interprets each defunctionalized closure tag by the body the source
gives that closure:
* `empty`'s closure is `({ Empty }) => Empty()`;
* `cons(head, tail)`'s closure is `({ Cons }) => Cons(head, tail)`;
* `map(list, f)`'s closure is `({ Cons, Empty }) =>
  list.caseOf({ Empty: () => Empty(), Cons: (head, tail) => Cons(f(head), map(tail, f)) })`,
  where `map(tail, f)` is the `mapClo` tag for `(tail, f)`. -/
def caseOf : ∀ {T R : Type}, SList T → ListCasesArg T R → R
  | _, _, .emptyClo, h => h.Empty ()
  | _, _, .consClo head tail, h => h.Cons head tail
  | _, _, .mapClo list f, h =>
    caseOf list ⟨fun _ => h.Empty (), fun head tail => h.Cons (f head) (.mapClo tail f)⟩

/-- Source: `export const empty = (): List<any> => ({ caseOf: ({ Empty }) => Empty() })`. -/
def empty {T : Type} : SList T := .emptyClo

/-- Source: `export const cons = <T>(head, tail) => ({ caseOf: ({ Cons }) => Cons(head, tail) })`. -/
def cons {T : Type} (head : T) (tail : SList T) : SList T := .consClo head tail

/-- Source: `map` returns the object literal whose `caseOf` is the
dispatcher interpreted by the `mapClo` case of `caseOf`. -/
def map {A B : Type} (list : SList A) (f : A → B) : SList B := .mapClo list f

/-- Weak-head evaluation of a closure: which handler would `caseOf` invoke,
and with which payload.  This is a technical device used to define
`toArray` by well-founded recursion; `caseOf_eq_whnf_keyed` proves it agrees
with `caseOf` on every handler record. -/
def whnf : ∀ {T : Type}, SList T → Option (T × SList T)
  | _, .emptyClo => none
  | _, .consClo head tail => some (head, tail)
  | _, .mapClo list f =>
    match whnf list with
    | none => none
    | some (head, tail) => some (f head, .mapClo tail f)

/-- Structural size of a closure, the termination measure for `toArray`. -/
def size : ∀ {T : Type}, SList T → Nat
  | _, .emptyClo => 1
  | _, .consClo _ tail => size tail + 1
  | _, .mapClo list _ => size list + 1

theorem caseOf_eq_whnf_keyed {T : Type} (l : SList T) :
    ∀ {R : Type} (h : ListCasesArg T R),
      caseOf l h =
        match whnf l with
        | none => h.Empty ()
        | some (head, tail) => h.Cons head tail := by
  induction l with
  | emptyClo => intro R h; rfl
  | consClo head tail => intro R h; rfl
  | mapClo list f ih =>
    intro R h
    show caseOf list _ = _
    rw [ih]
    cases hw : whnf list with
    | none => simp [whnf, hw]
    | some p => cases p with
      | mk head tail => simp [whnf, hw]

theorem whnf_size_keyed {T : Type} (l : SList T) :
    ∀ {head : T} {tail : SList T}, whnf l = some (head, tail) → size tail < size l := by
  induction l with
  | emptyClo => intro head tail hw; simp [whnf] at hw
  | consClo h0 t0 =>
    intro head tail hw
    simp only [whnf, Option.some.injEq, Prod.mk.injEq] at hw
    cases hw.2
    simp [size]
  | mapClo list f ih =>
    intro head tail hw
    cases hw0 : whnf list with
    | none => rw [whnf, hw0] at hw; exact absurd hw (by simp)
    | some p =>
      cases p with
      | mk h0 t0 =>
        rw [whnf, hw0] at hw
        simp only [Option.some.injEq, Prod.mk.injEq] at hw
        cases hw.2
        have := ih hw0
        simp only [size]
        omega

/-- Source: `toArray` calls
`list.caseOf({ Empty: () => [], Cons: (head, tail) => [head, ...toArray(tail)] })`.
The recursive call happens on the tail the dispatcher hands to the `Cons`
handler, so the definition recurses through `whnf` (well-founded on
`size`); `toArray_caseOf_keyed` proves the source's defining equation. -/
def toArray {T : Type} (l : SList T) : List T :=
  match hw : whnf l with
  | none => []
  | some (head, tail) => head :: toArray tail
termination_by size l
decreasing_by exact whnf_size_keyed l hw

theorem toArray_whnf_keyed {T : Type} (l : SList T) :
    toArray l =
      match whnf l with
      | none => []
      | some (head, tail) => head :: toArray tail := by
  rw [toArray]
  cases hw : whnf l with
  | none => rfl
  | some p => rfl

/-- The keyed `toArray` satisfies exactly the source's defining equation. -/
theorem toArray_caseOf_keyed {T : Type} (l : SList T) :
    toArray l = caseOf l ⟨fun _ => [], fun head tail => head :: toArray tail⟩ := by
  rw [caseOf_eq_whnf_keyed, toArray_whnf_keyed]

theorem toArray_empty_keyed {T : Type} : toArray (empty : SList T) = [] := by
  rw [toArray_whnf_keyed]; rfl

theorem toArray_cons_keyed {T : Type} (head : T) (tail : SList T) :
    toArray (cons head tail) = head :: toArray tail := by
  rw [toArray_whnf_keyed]; rfl

theorem toArray_mapClo_le_keyed {A B : Type} (f : A → B) :
    ∀ (n : Nat) (l : SList A), size l ≤ n →
      toArray (SList.mapClo l f) = (toArray l).map f := by
  intro n
  induction n with
  | zero => intro l hle; cases l <;> simp [size] at hle
  | succ n ih =>
    intro l hle
    rw [toArray_whnf_keyed (SList.mapClo l f), toArray_whnf_keyed l]
    cases hw : whnf l with
    | none => simp [whnf, hw]
    | some p =>
      cases p with
      | mk head tail =>
        have htail : size tail ≤ n := by
          have := whnf_size_keyed l hw
          omega
        simp [whnf, hw, ih tail htail]

/-- Mapping `f` over any closure and materializing agrees with
materializing first and mapping over the native array. -/
theorem toArray_map_keyed {A B : Type} (l : SList A) (f : A → B) :
    toArray (map l f) = (toArray l).map f :=
  toArray_mapClo_le_keyed f (size l) l (Nat.le_refl _)

/-- Builds the Scott list for a given finite sequence of elements, as
nested `cons` applications terminated by `empty`. -/
def ofList {T : Type} : List T → SList T
  | [] => empty
  | x :: xs => cons x (ofList xs)

theorem toArray_ofList_keyed {T : Type} (xs : List T) : toArray (ofList xs) = xs := by
  induction xs with
  | nil => exact toArray_empty_keyed
  | cons x xs ih => rw [ofList, toArray_cons_keyed, ih]

end ScottKeyed

/-! ### Scott encoding, positional-argument variant

Source: the Scott module whose `caseOf` takes two positional handlers.

```
export type ListCases<T> = <Result>(
  onEmpty: () => Result,
  onCons: (head: T, tail: List<T>) => Result
) => Result
export type List<T> = { caseOf: ListCases<T> }
```

Same defunctionalization as the keyed variant: `SList` is the family of
the three closure shapes the module creates, and `caseOf` interprets each
tag with exactly the body the source gives that closure, now receiving the
two handlers positionally.
-/

namespace ScottPos

inductive SList : Type → Type 1 where
  | emptyClo : ∀ {T : Type}, SList T
  | consClo : ∀ {T : Type}, T → SList T → SList T
  | mapClo : ∀ {A B : Type}, SList A → (A → B) → SList B

/-- Interprets each defunctionalized closure tag by the body the source
gives that closure:
* `empty`'s closure is `(f) => f()`;
* `cons(head, tail)`'s closure is `(_, f) => f(head, tail)`;
* `map(list, f)`'s closure is `(onEmpty, onCons) =>
  list.caseOf(() => onEmpty(), (head, tail) => onCons(f(head), map(tail, f)))`,
  where `map(tail, f)` is the `mapClo` tag for `(tail, f)`. -/
def caseOf : ∀ {T R : Type}, SList T → (Unit → R) → (T → SList T → R) → R
  | _, _, .emptyClo, onEmpty, _ => onEmpty ()
  | _, _, .consClo head tail, _, onCons => onCons head tail
  | _, _, .mapClo list f, onEmpty, onCons =>
    caseOf list (fun _ => onEmpty ()) (fun head tail => onCons (f head) (.mapClo tail f))

/-- Source: `export const empty = (): List<any> => ({ caseOf: (f) => f() })`. -/
def empty {T : Type} : SList T := .emptyClo

/-- Source: `export const cons = <T>(head, tail) => ({ caseOf: (_, f) => f(head, tail) })`. -/
def cons {T : Type} (head : T) (tail : SList T) : SList T := .consClo head tail

/-- Source: `map` returns the object literal whose `caseOf` is the
dispatcher interpreted by the `mapClo` case of `caseOf`. -/
def map {A B : Type} (list : SList A) (f : A → B) : SList B := .mapClo list f

/-- Weak-head evaluation, as in the keyed variant: a technical device for
defining `toArray` by well-founded recursion, related back to `caseOf` by
`caseOf_eq_whnf_pos`. -/
def whnf : ∀ {T : Type}, SList T → Option (T × SList T)
  | _, .emptyClo => none
  | _, .consClo head tail => some (head, tail)
  | _, .mapClo list f =>
    match whnf list with
    | none => none
    | some (head, tail) => some (f head, .mapClo tail f)

/-- Structural size of a closure, the termination measure for `toArray`. -/
def size : ∀ {T : Type}, SList T → Nat
  | _, .emptyClo => 1
  | _, .consClo _ tail => size tail + 1
  | _, .mapClo list _ => size list + 1

theorem caseOf_eq_whnf_pos {T : Type} (l : SList T) :
    ∀ {R : Type} (onEmpty : Unit → R) (onCons : T → SList T → R),
      caseOf l onEmpty onCons =
        match whnf l with
        | none => onEmpty ()
        | some (head, tail) => onCons head tail := by
  induction l with
  | emptyClo => intro R onEmpty onCons; rfl
  | consClo head tail => intro R onEmpty onCons; rfl
  | mapClo list f ih =>
    intro R onEmpty onCons
    show caseOf list _ _ = _
    rw [ih]
    cases hw : whnf list with
    | none => simp [whnf, hw]
    | some p => cases p with
      | mk head tail => simp [whnf, hw]

theorem whnf_size_pos {T : Type} (l : SList T) :
    ∀ {head : T} {tail : SList T}, whnf l = some (head, tail) → size tail < size l := by
  induction l with
  | emptyClo => intro head tail hw; simp [whnf] at hw
  | consClo h0 t0 =>
    intro head tail hw
    simp only [whnf, Option.some.injEq, Prod.mk.injEq] at hw
    cases hw.2
    simp [size]
  | mapClo list f ih =>
    intro head tail hw
    cases hw0 : whnf list with
    | none => rw [whnf, hw0] at hw; exact absurd hw (by simp)
    | some p =>
      cases p with
      | mk h0 t0 =>
        rw [whnf, hw0] at hw
        simp only [Option.some.injEq, Prod.mk.injEq] at hw
        cases hw.2
        have := ih hw0
        simp only [size]
        omega

/-- Source: `toArray` calls
`list.caseOf(() => [], (head, tail) => [head, ...toArray(tail)])`.
As in the keyed variant, the definition recurses through `whnf`
(well-founded on `size`); `toArray_caseOf_pos` proves the source's defining
equation. -/
def toArray {T : Type} (l : SList T) : List T :=
  match hw : whnf l with
  | none => []
  | some (head, tail) => head :: toArray tail
termination_by size l
decreasing_by exact whnf_size_pos l hw

theorem toArray_whnf_pos {T : Type} (l : SList T) :
    toArray l =
      match whnf l with
      | none => []
      | some (head, tail) => head :: toArray tail := by
  rw [toArray]
  cases hw : whnf l with
  | none => rfl
  | some p => rfl

/-- The positional `toArray` satisfies exactly the source's defining equation. -/
theorem toArray_caseOf_pos {T : Type} (l : SList T) :
    toArray l = caseOf l (fun _ => []) (fun head tail => head :: toArray tail) := by
  rw [caseOf_eq_whnf_pos, toArray_whnf_pos]

theorem toArray_empty_pos {T : Type} : toArray (empty : SList T) = [] := by
  rw [toArray_whnf_pos]; rfl

theorem toArray_cons_pos {T : Type} (head : T) (tail : SList T) :
    toArray (cons head tail) = head :: toArray tail := by
  rw [toArray_whnf_pos]; rfl

theorem toArray_mapClo_le_pos {A B : Type} (f : A → B) :
    ∀ (n : Nat) (l : SList A), size l ≤ n →
      toArray (SList.mapClo l f) = (toArray l).map f := by
  intro n
  induction n with
  | zero => intro l hle; cases l <;> simp [size] at hle
  | succ n ih =>
    intro l hle
    rw [toArray_whnf_pos (SList.mapClo l f), toArray_whnf_pos l]
    cases hw : whnf l with
    | none => simp [whnf, hw]
    | some p =>
      cases p with
      | mk head tail =>
        have htail : size tail ≤ n := by
          have := whnf_size_pos l hw
          omega
        simp [whnf, hw, ih tail htail]

/-- Mapping `f` over any closure and materializing agrees with
materializing first and mapping over the native array. -/
theorem toArray_map_pos {A B : Type} (l : SList A) (f : A → B) :
    toArray (map l f) = (toArray l).map f :=
  toArray_mapClo_le_pos f (size l) l (Nat.le_refl _)

/-- Builds the Scott list for a given finite sequence of elements, as
nested `cons` applications terminated by `empty`. -/
def ofList {T : Type} : List T → SList T
  | [] => empty
  | x :: xs => cons x (ofList xs)

theorem toArray_ofList_pos {T : Type} (xs : List T) : toArray (ofList xs) = xs := by
  induction xs with
  | nil => exact toArray_empty_pos
  | cons x xs ih => rw [ofList, toArray_cons_pos, ih]

end ScottPos

/-! ### The claims -/

/-- C1: in each of the three encodings (tagged union, Scott encoding in
both its keyed and positional variants, object algebra), for every finite
list built from `cons`/`empty` and every pure function `f`, materializing
the mapped list with `toArray` yields the same native array as applying
`f` elementwise to the materialization of the original list. -/
theorem claim_C1_map_commutes_with_toArray (A B : Type) (f : A → B) (xs : List A) :
    TaggedUnion.toArray (TaggedUnion.map (TaggedUnion.ofList xs) f)
        = (TaggedUnion.toArray (TaggedUnion.ofList xs)).map f
    ∧ ScottKeyed.toArray (ScottKeyed.map (ScottKeyed.ofList xs) f)
        = (ScottKeyed.toArray (ScottKeyed.ofList xs)).map f
    ∧ ScottPos.toArray (ScottPos.map (ScottPos.ofList xs) f)
        = (ScottPos.toArray (ScottPos.ofList xs)).map f
    ∧ ObjectAlgebra.toArray (ObjectAlgebra.map (ObjectAlgebra.ofList.{1} xs) f)
        = (ObjectAlgebra.toArray (ObjectAlgebra.ofList.{0} xs)).map f :=
  ⟨TaggedUnion.toArray_map_tagged _ f, ScottKeyed.toArray_map_keyed _ f, ScottPos.toArray_map_pos _ f,
    by rw [ObjectAlgebra.toArray_map_ofList, ObjectAlgebra.toArray_ofList_oa]⟩

/-- C2: for every finite sequence of elements, building the list as nested
`cons` applications terminated by `empty` in the tagged-union encoding, in
both Scott variants, and in the object-algebra encoding, and then calling
`toArray`, yields the same native array in all encodings. -/
theorem claim_C2_cross_encoding_toArray (A : Type) (xs : List A) :
    TaggedUnion.toArray (TaggedUnion.ofList xs) = ScottKeyed.toArray (ScottKeyed.ofList xs)
    ∧ TaggedUnion.toArray (TaggedUnion.ofList xs) = ScottPos.toArray (ScottPos.ofList xs)
    ∧ TaggedUnion.toArray (TaggedUnion.ofList xs)
        = ObjectAlgebra.toArray (ObjectAlgebra.ofList.{0} xs) := by
  rw [TaggedUnion.toArray_ofList_tagged, ScottKeyed.toArray_ofList_keyed, ScottPos.toArray_ofList_pos,
    ObjectAlgebra.toArray_ofList_oa]
  exact ⟨rfl, rfl, rfl⟩

/-- C3: in each encoding, `toArray (empty)` is the empty array, and
`toArray (cons x xs)` is `x` followed by `toArray xs` — proved here not
just for lists built from `cons`/`empty` but for arbitrary tails in every
encoding (for Scott, any closure of the module; for object algebra, any
list function). -/
theorem claim_C3_structural_unfolding (T : Type) (x : T)
    (lt : TaggedUnion.TList T) (lk : ScottKeyed.SList T) (lp : ScottPos.SList T)
    (lo : ObjectAlgebra.OList.{0} T) :
    (TaggedUnion.toArray (TaggedUnion.empty : TaggedUnion.TList T) = []
      ∧ TaggedUnion.toArray (TaggedUnion.cons x lt) = x :: TaggedUnion.toArray lt)
    ∧ (ScottKeyed.toArray (ScottKeyed.empty : ScottKeyed.SList T) = []
      ∧ ScottKeyed.toArray (ScottKeyed.cons x lk) = x :: ScottKeyed.toArray lk)
    ∧ (ScottPos.toArray (ScottPos.empty : ScottPos.SList T) = []
      ∧ ScottPos.toArray (ScottPos.cons x lp) = x :: ScottPos.toArray lp)
    ∧ (ObjectAlgebra.toArray (ObjectAlgebra.empty : ObjectAlgebra.OList.{0} T) = []
      ∧ ObjectAlgebra.toArray (ObjectAlgebra.cons x lo) = x :: ObjectAlgebra.toArray lo) :=
  ⟨⟨rfl, rfl⟩,
    ⟨ScottKeyed.toArray_empty_keyed, ScottKeyed.toArray_cons_keyed x lk⟩,
    ⟨ScottPos.toArray_empty_pos, ScottPos.toArray_cons_pos x lp⟩,
    ⟨rfl, rfl⟩⟩

/-- C4: in both Scott variants, for all handlers, `empty ()`'s `caseOf`
invokes the `Empty`/`onEmpty` handler with no arguments and returns its
result, and `cons h t`'s `caseOf` invokes the `Cons`/`onCons` handler with
exactly `(h, t)` and returns its result. -/
theorem claim_C4_scott_constructor_dispatch (T R : Type)
    (h : ScottKeyed.ListCasesArg T R)
    (onEmpty : Unit → R) (onCons : T → ScottPos.SList T → R)
    (x : T) (tk : ScottKeyed.SList T) (tp : ScottPos.SList T) :
    (ScottKeyed.caseOf ScottKeyed.empty h = h.Empty ()
      ∧ ScottKeyed.caseOf (ScottKeyed.cons x tk) h = h.Cons x tk)
    ∧ (ScottPos.caseOf ScottPos.empty onEmpty onCons = onEmpty ()
      ∧ ScottPos.caseOf (ScottPos.cons x tp) onEmpty onCons = onCons x tp) :=
  ⟨⟨rfl, rfl⟩, ⟨rfl, rfl⟩⟩

/-- C5: in the object-algebra encoding, for every algebra `L`, `empty`
applied to `L` returns `L.empty ()`, and `cons first rest` applied to `L`
returns `L.cons first (rest L)` — the tail recursively folded through the
same algebra before being passed to `L.cons`, not passed unfolded. -/
theorem claim_C5_object_algebra_constructors (T : Type) (R : Type u)
    (L : ObjectAlgebra.ListAlg T R) (first : T) (rest : ObjectAlgebra.OList.{u} T) :
    ObjectAlgebra.empty R L = L.empty ()
    ∧ ObjectAlgebra.cons first rest R L = L.cons first (rest R L) :=
  ⟨rfl, rfl⟩

/-- C6: in both Scott variants, for every closure, every function `f` and
all handlers, `(map list f).caseOf` returns the same result as
`list.caseOf` applied to handlers that delegate the empty case to the
caller's empty handler and, for a cons payload `(head, tail)`, call the
caller's cons handler with `f head` and `map tail f`. -/
theorem claim_C6_scott_map_dispatch (A B R : Type) (f : A → B)
    (lk : ScottKeyed.SList A) (hk : ScottKeyed.ListCasesArg B R)
    (lp : ScottPos.SList A) (onEmpty : Unit → R) (onCons : B → ScottPos.SList B → R) :
    ScottKeyed.caseOf (ScottKeyed.map lk f) hk
      = ScottKeyed.caseOf lk
          ⟨fun _ => hk.Empty (), fun head tail => hk.Cons (f head) (ScottKeyed.map tail f)⟩
    ∧ ScottPos.caseOf (ScottPos.map lp f) onEmpty onCons
      = ScottPos.caseOf lp
          (fun _ => onEmpty ()) (fun head tail => onCons (f head) (ScottPos.map tail f)) :=
  ⟨rfl, rfl⟩

/-- The object-algebra list written directly as a function literal over the
algebra, from the test `Lists can be written as lambdas`:
`(L) => L.cons(3, L.cons(2, L.empty()))`. -/
def numbersLit : ObjectAlgebra.OList.{u} Nat :=
  fun _ L => L.cons 3 (L.cons 2 (L.empty ()))

/-- C7: in the object-algebra encoding, the raw function literal
`(L) => L.cons(3, L.cons(2, L.empty()))` is the same list function as
`cons 3 (cons 2 empty)`, and mapping `n => n * n` over it and
materializing yields `[9, 4]`, exactly as for the constructor-built
list. -/
theorem claim_C7_lambda_literal_interop :
    numbersLit.{u} = ObjectAlgebra.cons 3 (ObjectAlgebra.cons 2 ObjectAlgebra.empty)
    ∧ ObjectAlgebra.toArray (ObjectAlgebra.map numbersLit.{1} (fun n => n * n)) = [9, 4]
    ∧ ObjectAlgebra.toArray
        (ObjectAlgebra.map
          (ObjectAlgebra.cons 3 (ObjectAlgebra.cons 2 ObjectAlgebra.empty)
            : ObjectAlgebra.OList.{1} Nat)
          (fun n => n * n)) = [9, 4] :=
  ⟨rfl, rfl, rfl⟩

/-- C8: in all encodings, the operations are total on well-typed finite
lists.  In this embedding every operation is a Lean function accepted as
total (the Scott `toArray` by well-founded recursion on closure size), and
this theorem exhibits the definite value that `toArray` and `map` followed
by `toArray` return on every list built from finitely many `cons`
applications terminated by `empty`. -/
theorem claim_C8_totality (A B : Type) (f : A → B) (xs : List A) :
    (TaggedUnion.toArray (TaggedUnion.ofList xs) = xs
      ∧ TaggedUnion.toArray (TaggedUnion.map (TaggedUnion.ofList xs) f) = xs.map f)
    ∧ (ScottKeyed.toArray (ScottKeyed.ofList xs) = xs
      ∧ ScottKeyed.toArray (ScottKeyed.map (ScottKeyed.ofList xs) f) = xs.map f)
    ∧ (ScottPos.toArray (ScottPos.ofList xs) = xs
      ∧ ScottPos.toArray (ScottPos.map (ScottPos.ofList xs) f) = xs.map f)
    ∧ (ObjectAlgebra.toArray (ObjectAlgebra.ofList.{0} xs) = xs
      ∧ ObjectAlgebra.toArray (ObjectAlgebra.map (ObjectAlgebra.ofList.{1} xs) f)
          = xs.map f) :=
  ⟨⟨TaggedUnion.toArray_ofList_tagged xs,
      by rw [TaggedUnion.toArray_map_tagged, TaggedUnion.toArray_ofList_tagged]⟩,
    ⟨ScottKeyed.toArray_ofList_keyed xs,
      by rw [ScottKeyed.toArray_map_keyed, ScottKeyed.toArray_ofList_keyed]⟩,
    ⟨ScottPos.toArray_ofList_pos xs,
      by rw [ScottPos.toArray_map_pos, ScottPos.toArray_ofList_pos]⟩,
    ⟨ObjectAlgebra.toArray_ofList_oa xs, ObjectAlgebra.toArray_map_ofList xs f⟩⟩

/-- C9: rendering of the laziness property in a total embedding.  For both
Scott variants, `map list f` is exactly the allocation of the dispatcher
closure (`mapClo list f`), a constructor application that stores `list`
and `f` unexamined — no case dispatch on the input happens at
map-construction time, and the input's dispatcher is only invoked when a
consumer supplies handlers to `caseOf` (third and fourth conjuncts).  For
the object-algebra encoding, `map list f` is exactly the single
application of the list function to the mapping algebra — a list function
is consumed only by supplying an algebra. -/
theorem claim_C9_laziness :
    (∀ (A B : Type) (l : ScottKeyed.SList A) (f : A → B),
      ScottKeyed.map l f = ScottKeyed.SList.mapClo l f)
    ∧ (∀ (A B : Type) (l : ScottPos.SList A) (f : A → B),
      ScottPos.map l f = ScottPos.SList.mapClo l f)
    ∧ (∀ (A B R : Type) (l : ScottKeyed.SList A) (f : A → B)
        (h : ScottKeyed.ListCasesArg B R),
      ScottKeyed.caseOf (ScottKeyed.SList.mapClo l f) h
        = ScottKeyed.caseOf l
            ⟨fun _ => h.Empty (),
              fun head tail => h.Cons (f head) (ScottKeyed.SList.mapClo tail f)⟩)
    ∧ (∀ (A B R : Type) (l : ScottPos.SList A) (f : A → B)
        (onEmpty : Unit → R) (onCons : B → ScottPos.SList B → R),
      ScottPos.caseOf (ScottPos.SList.mapClo l f) onEmpty onCons
        = ScottPos.caseOf l
            (fun _ => onEmpty ())
            (fun head tail => onCons (f head) (ScottPos.SList.mapClo tail f)))
    ∧ (∀ (A B : Type) (l : ObjectAlgebra.OList.{u + 1} A) (f : A → B),
      ObjectAlgebra.map l f
        = l (ObjectAlgebra.OList.{u} B)
            ⟨fun _ => ObjectAlgebra.empty,
              fun head tail => ObjectAlgebra.cons (f head) tail⟩) :=
  ⟨fun _ _ _ _ => rfl, fun _ _ _ _ => rfl, fun _ _ _ _ _ _ => rfl,
    fun _ _ _ _ _ _ _ => rfl, fun _ _ _ _ => rfl⟩

/-- C10: in each encoding, `map` preserves the number of elements: the
materialization of the mapped list has the same length as the
materialization of the original list, for every finite list built from
`cons`/`empty`. -/
theorem claim_C10_map_preserves_length (A B : Type) (f : A → B) (xs : List A) :
    (TaggedUnion.toArray (TaggedUnion.map (TaggedUnion.ofList xs) f)).length
        = (TaggedUnion.toArray (TaggedUnion.ofList xs)).length
    ∧ (ScottKeyed.toArray (ScottKeyed.map (ScottKeyed.ofList xs) f)).length
        = (ScottKeyed.toArray (ScottKeyed.ofList xs)).length
    ∧ (ScottPos.toArray (ScottPos.map (ScottPos.ofList xs) f)).length
        = (ScottPos.toArray (ScottPos.ofList xs)).length
    ∧ (ObjectAlgebra.toArray (ObjectAlgebra.map (ObjectAlgebra.ofList.{1} xs) f)).length
        = (ObjectAlgebra.toArray (ObjectAlgebra.ofList.{0} xs)).length := by
  refine ⟨?_, ?_, ?_, ?_⟩
  · rw [TaggedUnion.toArray_map_tagged, List.length_map]
  · rw [ScottKeyed.toArray_map_keyed, List.length_map]
  · rw [ScottPos.toArray_map_pos, List.length_map]
  · rw [ObjectAlgebra.toArray_map_ofList, ObjectAlgebra.toArray_ofList_oa, List.length_map]
